import Mathlib

/-!
Verification of the RRT motion-planning module (`CSCI3302_hw2_rrt.py`).

Points are n-dimensional real vectors, modelled as `Fin n → ℝ`; the
Euclidean norm `np.linalg.norm (p - q)` is modelled by `dista`.
The functions `get_nearest_vertex`, `steer`, `check_path_valid` and the
body of `rrt` are unimplemented stubs in the source (they raise
`NotImplementedError`); they are modelled here from the specification's
contracts (§4.1-§4.4 of the design document), with the external random
sampler made explicit as a stream of sample points.  `Node` and
`state_is_valid` are translated directly from the source.
-/

noncomputable section

/-- An n-dimensional point (real-valued vector), as in the source's
`np.array` states. -/
abbrev Pt (n : ℕ) : Type := Fin n → ℝ

/-- Euclidean distance between two points: `np.linalg.norm(p - q)`. -/
def dista {n : ℕ} (p q : Pt n) : ℝ :=
  Real.sqrt (∑ i, (p i - q i) ^ 2)

/-- RRT graph node, from the source's `Node.__init__`: a point, an
optional parent reference, and the list of points along the edge from
the parent (`path_from_parent`, initialised to `[]`). -/
inductive Node (n : ℕ) : Type where
  | mk (point : Pt n) (parent : Option (Node n)) (path_from_parent : List (Pt n))

/-- The node's state (`self.point`). -/
def Node.point {n : ℕ} : Node n → Pt n
  | .mk p _ _ => p

/-- The node's parent reference (`self.parent`), `none` at the root. -/
def Node.parent {n : ℕ} : Node n → Option (Node n)
  | .mk _ par _ => par

/-- The discretized edge from the parent (`self.path_from_parent`). -/
def Node.path_from_parent {n : ℕ} : Node n → List (Pt n)
  | .mk _ _ pa => pa

/-- Number of parent links above this node. -/
def Node.depth {n : ℕ} : Node n → ℕ
  | .mk _ none _ => 0
  | .mk _ (some par) _ => par.depth + 1

/-- The chain of nodes visited by following parent links, starting at the
node itself and ending at its parentless ancestor. -/
def Node.chain {n : ℕ} : Node n → List (Node n)
  | .mk p none pa => [Node.mk p none pa]
  | .mk p (some par) pa => Node.mk p (some par) pa :: par.chain

/-- Modelled from the spec: the effective target of §4.2 Steering.  If the
Euclidean distance from `from_point` to `to_point` is ≤ `delta_q` the
target is `to_point` itself, otherwise it is the point on the ray from
`from_point` toward `to_point` at distance `delta_q`. -/
def steerTarget {n : ℕ} (from_point to_point : Pt n) (delta_q : ℝ) : Pt n :=
  if dista from_point to_point ≤ delta_q then to_point
  else fun i => from_point i + delta_q * (to_point i - from_point i) / dista from_point to_point

/-- Modelled from the spec: `steer` (§4.2), whose body is a
`NotImplementedError` stub in the source.  Returns the 10 evenly spaced
points of `np.linspace` between `from_point` and the effective target,
inclusive of both endpoints. -/
def steer {n : ℕ} (from_point to_point : Pt n) (delta_q : ℝ) : List (Pt n) :=
  (List.range 10).map fun (j : ℕ) => fun i =>
    from_point i + (j : ℝ) / 9 * (steerTarget from_point to_point delta_q i - from_point i)

/-- Modelled from the spec: `check_path_valid` (§4.3), whose body is a
`NotImplementedError` stub in the source: true iff every waypoint of the
path satisfies the validity predicate, failing fast on the first invalid
point. -/
def check_path_valid {n : ℕ} (path : List (Pt n)) (state_is_valid : Pt n → Bool) : Bool :=
  path.all state_is_valid

/-- Linear scan keeping the current best node, replacing it only on a
strict improvement so that the earliest-inserted minimizer wins. -/
def nearestAux {n : ℕ} (q_point : Pt n) (best : Node n) : List (Node n) → Node n
  | [] => best
  | x :: xs => nearestAux q_point (if dista x.point q_point < dista best.point q_point then x else best) xs

/-- Modelled from the spec: `get_nearest_vertex` (§4.1), whose body is a
`NotImplementedError` stub in the source: linear scan for the node of
`node_list` closest to `q_point`, ties broken by earliest insertion
order; the precondition violation on an empty list is modelled as
`none`. -/
def get_nearest_vertex {n : ℕ} (node_list : List (Node n)) (q_point : Pt n) : Option (Node n) :=
  match node_list with
  | [] => none
  | x :: xs => some (nearestAux q_point x xs)

/-- Modelled from the spec: the goal-arrival test of §4.4 step 5 — a goal
point was supplied, this iteration appended a new node, and the newly
added (last) node's state is within `1e-5` of the goal. -/
def goalHit {n : ℕ} (goal_point : Option (Pt n)) (nodes nodesNext : List (Node n)) : Bool :=
  match goal_point, nodesNext.getLast? with
  | some g, some lastNode =>
      decide (nodes.length < nodesNext.length) && decide (dista lastNode.point g ≤ 1e-5)
  | _, _ => false

/-- Modelled from the spec: one growth iteration of §4.4 (steps 2-4):
query the nearest vertex to the sampled point, steer toward the sample
under the step bound, validate the waypoint path, and either append a new
node (state = last waypoint, parent = the nearest node, path = the full
waypoint sequence) or leave the tree unchanged. -/
def rrtStep {n : ℕ} (state_is_valid : Pt n → Bool) (delta_q : ℝ)
    (nodes : List (Node n)) (sample : Pt n) : List (Node n) :=
  match get_nearest_vertex nodes sample with
  | none => nodes
  | some q_near =>
      let path := steer q_near.point sample delta_q
      if check_path_valid path state_is_valid then
        nodes ++ [Node.mk (path.getLastD q_near.point) (some q_near) path]
      else nodes

/-- Modelled from the spec: the iteration loop of §4.4, bounded by the
remaining fuel; `i` is the index into the sample stream.  After each
iteration the loop terminates immediately if the goal-arrival test fires,
otherwise it continues until the budget is exhausted. -/
def rrtGo {n : ℕ} (state_is_valid : Pt n → Bool) (goal_point : Option (Pt n))
    (delta_q : ℝ) (samples : ℕ → Pt n) : ℕ → ℕ → List (Node n) → List (Node n)
  | 0, _, nodes => nodes
  | fuel + 1, i, nodes =>
      let nodesNext := rrtStep state_is_valid delta_q nodes (samples i)
      if goalHit goal_point nodes nodesNext then nodesNext
      else rrtGo state_is_valid goal_point delta_q samples fuel (i + 1) nodesNext

/-- Modelled from the spec: `rrt` (§4.4, `plan` in §6), whose loop body is
a TODO in the source; the source-provided initialisation (a single root
node at `starting_point` with no parent and an empty path) is kept
verbatim.  The external random sampler is made explicit as the stream
`samples`. -/
def rrt {n : ℕ} (state_bounds : Fin n → ℝ × ℝ) (state_is_valid : Pt n → Bool)
    (starting_point : Pt n) (goal_point : Option (Pt n)) (k : ℕ) (delta_q : ℝ)
    (samples : ℕ → Pt n) : List (Node n) :=
  rrtGo state_is_valid goal_point delta_q samples k 0 [Node.mk starting_point none []]

/-- Translated from the source's `state_is_valid` closures (both copies,
lines 40-51 and 68-79): each early `return False` becomes the negated
condition — the state is valid iff no dimension check and no obstacle
check fires. -/
def state_is_valid {n : ℕ} (state_bounds : Fin n → ℝ × ℝ)
    (obstacles : List (Pt n × ℝ)) (state : Pt n) : Prop :=
  (∀ dim, ¬(state dim < (state_bounds dim).1) ∧ ¬(state dim ≥ (state_bounds dim).2)) ∧
    ∀ obs ∈ obstacles, ¬(dista state obs.1 ≤ obs.2)

/-- A concrete one-dimensional point, used to instantiate theorems. -/
def ptC (c : ℝ) : Pt 1 := fun _ => c

end

section Distance

lemma dista_self {n : ℕ} (p : Pt n) : dista p p = 0 := by
  simp [dista]

lemma dista_nonneg {n : ℕ} (p q : Pt n) : 0 ≤ dista p q :=
  Real.sqrt_nonneg _

lemma dista_ptC (a b : ℝ) : dista (ptC a) (ptC b) = |a - b| := by
  unfold dista ptC
  rw [Fin.sum_univ_one]
  exact Real.sqrt_sq_eq_abs _

end Distance

section Steer

lemma range_ten : List.range 10 = [0, 1, 2, 3, 4, 5, 6, 7, 8, 9] := rfl

lemma steer_explicit {n : ℕ} (f t : Pt n) (d : ℝ) :
    steer f t d =
      [fun i => f i + (0 : ℝ) / 9 * (steerTarget f t d i - f i),
       fun i => f i + (1 : ℝ) / 9 * (steerTarget f t d i - f i),
       fun i => f i + (2 : ℝ) / 9 * (steerTarget f t d i - f i),
       fun i => f i + (3 : ℝ) / 9 * (steerTarget f t d i - f i),
       fun i => f i + (4 : ℝ) / 9 * (steerTarget f t d i - f i),
       fun i => f i + (5 : ℝ) / 9 * (steerTarget f t d i - f i),
       fun i => f i + (6 : ℝ) / 9 * (steerTarget f t d i - f i),
       fun i => f i + (7 : ℝ) / 9 * (steerTarget f t d i - f i),
       fun i => f i + (8 : ℝ) / 9 * (steerTarget f t d i - f i),
       fun i => f i + (9 : ℝ) / 9 * (steerTarget f t d i - f i)] := by
  rw [steer, range_ten]
  simp

lemma steer_length {n : ℕ} (f t : Pt n) (d : ℝ) : (steer f t d).length = 10 := by
  rw [steer_explicit]
  rfl

lemma steer_head? {n : ℕ} (f t : Pt n) (d : ℝ) : (steer f t d).head? = some f := by
  rw [steer_explicit]
  simp only [List.head?_cons, Option.some.injEq]
  funext i
  norm_num

lemma steer_getElem? {n : ℕ} (f t : Pt n) (d : ℝ) (j : ℕ) (hj : j < 10) :
    (steer f t d)[j]? = some (fun i => f i + (j : ℝ) / 9 * (steerTarget f t d i - f i)) := by
  rw [steer, List.getElem?_map, List.getElem?_range hj]
  rfl

lemma steer_getLast? {n : ℕ} (f t : Pt n) (d : ℝ) :
    (steer f t d).getLast? = some (steerTarget f t d) := by
  rw [List.getLast?_eq_getElem?, steer_length]
  rw [show (10 : ℕ) - 1 = 9 from rfl, steer_getElem? f t d 9 (by norm_num)]
  congr 1
  funext i
  push_cast
  ring

lemma steerTarget_self {n : ℕ} (p : Pt n) (d : ℝ) : steerTarget p p d = p := by
  unfold steerTarget
  split
  · rfl
  · funext i
    simp

end Steer

/-- C1: `steer from_point to_point delta_q` returns an ordered sequence of
exactly 10 evenly spaced points whose first element equals `from_point`
and whose last element equals the effective target; in particular, when
`from_point = to_point` it returns 10 copies of that point. -/
theorem steer_ten_evenly_spaced {n : ℕ} (from_point to_point : Pt n) (delta_q : ℝ) :
    (steer from_point to_point delta_q).length = 10 ∧
    (steer from_point to_point delta_q).head? = some from_point ∧
    (steer from_point to_point delta_q).getLast? =
      some (steerTarget from_point to_point delta_q) ∧
    (∀ j : ℕ, j + 1 < 10 →
      ∃ a b : Pt n, (steer from_point to_point delta_q)[j]? = some a ∧
        (steer from_point to_point delta_q)[j + 1]? = some b ∧
        ∀ i, b i - a i =
          (steerTarget from_point to_point delta_q i - from_point i) / 9) ∧
    (from_point = to_point →
      steer from_point to_point delta_q = List.replicate 10 from_point) := by
  refine ⟨steer_length .., steer_head? .., steer_getLast? .., ?_, ?_⟩
  · intro j hj
    refine ⟨_, _, steer_getElem? _ _ _ j (by omega), steer_getElem? _ _ _ (j + 1) hj, ?_⟩
    intro i
    push_cast
    ring
  · rintro rfl
    rw [steer]
    simp only [steerTarget_self, sub_self, mul_zero, add_zero]
    simp [List.map_const']

/-- Witness for C1: at the degenerate one-dimensional input where
`from_point = to_point`, `steer` returns 10 copies of the point. -/
theorem steer_ten_evenly_spaced_witness :
    (steer (ptC 0) (ptC 0) 1).length = 10 ∧
    steer (ptC 0) (ptC 0) 1 = List.replicate 10 (ptC 0) :=
  ⟨(steer_ten_evenly_spaced (ptC 0) (ptC 0) 1).1,
   (steer_ten_evenly_spaced (ptC 0) (ptC 0) 1).2.2.2.2 rfl⟩

/-- C2: the effective target reached by `steer` (its last element) is
`to_point` itself when the Euclidean distance is at most `delta_q`, and
otherwise is the point on the ray from `from_point` toward `to_point` at
exactly distance `delta_q`, i.e.
`from_point + delta_q * (to_point - from_point) / dista from_point to_point`. -/
theorem steer_effective_target {n : ℕ} (from_point to_point : Pt n) (delta_q : ℝ) :
    (dista from_point to_point ≤ delta_q →
      (steer from_point to_point delta_q).getLast? = some to_point) ∧
    (delta_q < dista from_point to_point →
      (steer from_point to_point delta_q).getLast? =
        some (fun i => from_point i +
          delta_q * (to_point i - from_point i) / dista from_point to_point)) := by
  constructor
  · intro h
    rw [steer_getLast?, steerTarget, if_pos h]
  · intro h
    rw [steer_getLast?, steerTarget, if_neg (not_le.mpr h)]

/-- Witness for C2: steering from 0 toward 3 in one dimension with step
bound 1 clips the target to the ray point at distance 1. -/
theorem steer_effective_target_witness :
    (steer (ptC 0) (ptC 3) 1).getLast? =
      some (fun i => ptC 0 i + 1 * (ptC 3 i - ptC 0 i) / dista (ptC 0) (ptC 3)) :=
  (steer_effective_target (ptC 0) (ptC 3) 1).2 (by rw [dista_ptC]; norm_num)

/-- C4: `check_path_valid` returns true iff every point of the path
satisfies the validity predicate. -/
theorem check_path_valid_iff {n : ℕ} (path : List (Pt n)) (state_is_valid : Pt n → Bool) :
    check_path_valid path state_is_valid = true ↔
      ∀ p ∈ path, state_is_valid p = true := by
  simp [check_path_valid, List.all_eq_true]

/-- C9: querying `get_nearest_vertex` on an empty node list fails — no
node is returned (the precondition violation is modelled as `none`). -/
theorem get_nearest_vertex_empty_fails {n : ℕ} (q_point : Pt n) :
    get_nearest_vertex ([] : List (Node n)) q_point = none := rfl

/-- C10: the validity predicate accepts a state iff every coordinate lies
in the half-open interval `[min, max)` of its dimension (a coordinate
exactly equal to the maximum is invalid) and the state is strictly
farther from every obstacle center than the obstacle radius (a point
exactly on an obstacle boundary is invalid). -/
theorem state_is_valid_iff {n : ℕ} (state_bounds : Fin n → ℝ × ℝ)
    (obstacles : List (Pt n × ℝ)) (state : Pt n) :
    state_is_valid state_bounds obstacles state ↔
      ((∀ dim, (state_bounds dim).1 ≤ state dim ∧ state dim < (state_bounds dim).2) ∧
        ∀ obs ∈ obstacles, obs.2 < dista state obs.1) := by
  unfold state_is_valid
  simp only [ge_iff_le, not_lt, not_le]

section Nearest

lemma nearestAux_cons {n : ℕ} (q : Pt n) (best x : Node n) (xs : List (Node n)) :
    nearestAux q best (x :: xs) =
      nearestAux q (if dista x.point q < dista best.point q then x else best) xs := rfl

lemma nearestAux_mem {n : ℕ} (q : Pt n) (xs : List (Node n)) (best : Node n) :
    nearestAux q best xs ∈ best :: xs := by
  induction xs generalizing best with
  | nil => simp [nearestAux]
  | cons x xs ih =>
      rw [nearestAux_cons]
      by_cases hc : dista x.point q < dista best.point q
      · rw [if_pos hc]
        have := ih x
        simp only [List.mem_cons] at this ⊢
        tauto
      · rw [if_neg hc]
        have := ih best
        simp only [List.mem_cons] at this ⊢
        tauto

lemma nearestAux_spec {n : ℕ} (q : Pt n) (xs : List (Node n)) :
    ∀ best : Node n,
      ∃ i : ℕ, ∃ hi : i < (best :: xs).length,
        nearestAux q best xs = (best :: xs)[i] ∧
        (∀ j, ∀ hj : j < (best :: xs).length,
          dista ((best :: xs)[i]).point q ≤ dista ((best :: xs)[j]).point q) ∧
        (∀ j, ∀ hj : j < (best :: xs).length, j < i →
          dista ((best :: xs)[i]).point q < dista ((best :: xs)[j]).point q) := by
  induction xs with
  | nil =>
      intro best
      refine ⟨0, by simp, rfl, ?_, ?_⟩
      · intro j hj
        simp only [List.length_singleton] at hj
        interval_cases j
        exact le_refl _
      · intro j hj hji
        omega
  | cons x xs ih =>
      intro best
      by_cases hc : dista x.point q < dista best.point q
      · obtain ⟨i, hi, heq, hmin, hstrict⟩ := ih x
        refine ⟨i + 1, by simpa using Nat.succ_lt_succ (by simpa using hi), ?_, ?_, ?_⟩
        · rw [nearestAux_cons, if_pos hc, List.getElem_cons_succ]
          exact heq
        · intro j hj
          rw [List.getElem_cons_succ]
          rcases j with _ | j
          · rw [List.getElem_cons_zero]
            exact le_trans (hmin 0 (by simp)) (le_of_lt hc)
          · rw [List.getElem_cons_succ]
            exact hmin j (by simpa using hj)
        · intro j hj hji
          rw [List.getElem_cons_succ]
          rcases j with _ | j
          · rw [List.getElem_cons_zero]
            exact lt_of_le_of_lt (hmin 0 (by simp)) hc
          · rw [List.getElem_cons_succ]
            exact hstrict j (by simpa using hj) (by omega)
      · obtain ⟨i, hi, heq, hmin, hstrict⟩ := ih best
        have hbx : dista best.point q ≤ dista x.point q := not_lt.mp hc
        rcases i with _ | i
        · refine ⟨0, by simp, ?_, ?_, ?_⟩
          · rw [nearestAux_cons, if_neg hc, List.getElem_cons_zero]
            rw [List.getElem_cons_zero] at heq
            exact heq
          · intro j hj
            rw [List.getElem_cons_zero]
            rcases j with _ | j
            · rw [List.getElem_cons_zero]
            · rw [List.getElem_cons_succ]
              rcases j with _ | j
              · rw [List.getElem_cons_zero]
                have h0 := hmin 0 (by simp)
                rw [List.getElem_cons_zero] at h0
                exact le_trans h0 hbx
              · rw [List.getElem_cons_succ]
                have hj' := hmin (j + 1) (by simpa using hj)
                rw [List.getElem_cons_zero, List.getElem_cons_succ] at hj'
                exact hj'
          · intro j hj hji
            omega
        · refine ⟨i + 2, by simpa using (by simpa using hi : i + 1 < xs.length + 1), ?_, ?_, ?_⟩
          · rw [nearestAux_cons, if_neg hc, List.getElem_cons_succ, List.getElem_cons_succ]
            rw [List.getElem_cons_succ] at heq
            exact heq
          · intro j hj
            rw [List.getElem_cons_succ, List.getElem_cons_succ]
            have hres := hmin (i + 1) (by simpa using hi)
            rw [List.getElem_cons_succ] at hres
            rcases j with _ | j
            · rw [List.getElem_cons_zero]
              have h0 := hmin 0 (by simp)
              rw [List.getElem_cons_zero, List.getElem_cons_succ] at h0
              exact h0
            · rw [List.getElem_cons_succ]
              rcases j with _ | j
              · rw [List.getElem_cons_zero]
                have h0 := hmin 0 (by simp)
                rw [List.getElem_cons_zero, List.getElem_cons_succ] at h0
                exact le_trans h0 hbx
              · rw [List.getElem_cons_succ]
                have hj' := hmin (j + 1) (by simpa using hj)
                rw [List.getElem_cons_succ, List.getElem_cons_succ] at hj'
                exact hj'
          · intro j hj hji
            rw [List.getElem_cons_succ, List.getElem_cons_succ]
            have h0 := hstrict 0 (by simp) (by omega)
            rw [List.getElem_cons_zero, List.getElem_cons_succ] at h0
            rcases j with _ | j
            · rw [List.getElem_cons_zero]
              exact h0
            · rw [List.getElem_cons_succ]
              rcases j with _ | j
              · rw [List.getElem_cons_zero]
                exact lt_of_lt_of_le h0 hbx
              · rw [List.getElem_cons_succ]
                have hj' := hstrict (j + 1) (by simpa using hj) (by omega)
                rw [List.getElem_cons_succ, List.getElem_cons_succ] at hj'
                exact hj'

end Nearest

/-- C3: for every non-empty node list and query point,
`get_nearest_vertex` returns a node of the list attaining the minimum
Euclidean distance to the query point; among nodes attaining the minimum
it returns the one with the earliest insertion index (all strictly
earlier nodes are strictly farther). -/
theorem get_nearest_vertex_min {n : ℕ} (node_list : List (Node n)) (q_point : Pt n)
    (h : node_list ≠ []) :
    ∃ i : ℕ, ∃ hi : i < node_list.length,
      get_nearest_vertex node_list q_point = some node_list[i] ∧
      (∀ j, ∀ hj : j < node_list.length,
        dista (node_list[i]).point q_point ≤ dista (node_list[j]).point q_point) ∧
      ∀ j, ∀ hj : j < node_list.length, j < i →
        dista (node_list[i]).point q_point < dista (node_list[j]).point q_point := by
  match node_list, h with
  | x :: xs, _ =>
      obtain ⟨i, hi, heq, hmin, hstrict⟩ := nearestAux_spec q_point xs x
      refine ⟨i, hi, ?_, hmin, hstrict⟩
      rw [get_nearest_vertex, heq]

/-- Concrete node used to instantiate theorems about node lists. -/
def nodeA : Node 1 := Node.mk (ptC 3) none []

/-- Concrete node used to instantiate theorems about node lists. -/
def nodeB : Node 1 := Node.mk (ptC 1) none []

section Chain

/-- The parentless ancestor reached by following parent links. -/
noncomputable def Node.chainRoot {n : ℕ} : Node n → Node n
  | .mk p none pa => .mk p none pa
  | .mk _ (some par) _ => par.chainRoot

theorem Node.chain_getLast? {n : ℕ} : ∀ node : Node n,
    node.chain.getLast? = some node.chainRoot
  | .mk p none pa => rfl
  | .mk p (some par) pa => by
      show (Node.mk p (some par) pa :: par.chain).getLast? = some par.chainRoot
      rw [List.getLast?_cons, Node.chain_getLast? par]
      rfl

theorem Node.depth_le_of_mem_chain {n : ℕ} :
    ∀ node x : Node n, x ∈ node.chain → x.depth ≤ node.depth
  | .mk p none pa, x, hx => by
      have hx' : x = Node.mk p none pa := by
        simpa [Node.chain] using hx
      subst hx'
      exact le_refl _
  | .mk p (some par) pa, x, hx => by
      have hx' : x = Node.mk p (some par) pa ∨ x ∈ par.chain := by
        simpa [Node.chain] using hx
      rcases hx' with rfl | hmem
      · exact le_refl _
      · have hle := Node.depth_le_of_mem_chain par x hmem
        have hd : (Node.mk p (some par) pa).depth = par.depth + 1 := rfl
        omega

theorem Node.chain_nodup {n : ℕ} : ∀ node : Node n, node.chain.Nodup
  | .mk p none pa => by simp [Node.chain]
  | .mk p (some par) pa => by
      show (Node.mk p (some par) pa :: par.chain).Nodup
      refine List.nodup_cons.mpr ⟨?_, Node.chain_nodup par⟩
      intro hmem
      have hle := Node.depth_le_of_mem_chain par _ hmem
      have hd : (Node.mk p (some par) pa).depth = par.depth + 1 := rfl
      omega

end Chain

section Invariant

/-- Every node except the one at index 0 has a non-null parent appearing
at a strictly earlier index of the list. -/
def parentEarlier {n : ℕ} (l : List (Node n)) : Prop :=
  ∀ i, ∀ hi : i < l.length, 0 < i →
    ∃ p, (l[i]).parent = some p ∧ ∃ j, ∃ hj : j < l.length, j < i ∧ l[j] = p

/-- The invariant maintained by the growth loop: the head of the list is
the root node, every node's parent chain ends at the root, and every
non-head node's parent appears earlier in the list. -/
def rrtInv {n : ℕ} (root : Node n) (l : List (Node n)) : Prop :=
  l.head? = some root ∧ (∀ x ∈ l, x.chainRoot = root) ∧ parentEarlier l

lemma get_nearest_vertex_mem {n : ℕ} {l : List (Node n)} {q : Pt n} {r : Node n}
    (h : get_nearest_vertex l q = some r) : r ∈ l := by
  match l with
  | [] => simp [get_nearest_vertex] at h
  | x :: xs =>
      rw [get_nearest_vertex, Option.some.injEq] at h
      rw [← h]
      exact nearestAux_mem q xs x

lemma rrtStep_cases {n : ℕ} (valid : Pt n → Bool) (d : ℝ) (nodes : List (Node n)) (s : Pt n) :
    rrtStep valid d nodes s = nodes ∨
      ∃ q_near ∈ nodes, rrtStep valid d nodes s =
        nodes ++ [Node.mk ((steer q_near.point s d).getLastD q_near.point)
          (some q_near) (steer q_near.point s d)] := by
  rw [rrtStep]
  match hm : get_nearest_vertex nodes s with
  | none => exact Or.inl rfl
  | some q =>
      by_cases hv : check_path_valid (steer q.point s d) valid
      · refine Or.inr ⟨q, get_nearest_vertex_mem hm, ?_⟩
        simp only [hv, if_true]
      · simp only [hv, Bool.false_eq_true, if_false]
        exact Or.inl trivial

lemma rrtStep_inv {n : ℕ} (valid : Pt n → Bool) (d : ℝ) {root : Node n}
    {l : List (Node n)} (s : Pt n) (h : rrtInv root l) :
    rrtInv root (rrtStep valid d l s) := by
  rcases rrtStep_cases valid d l s with heq | ⟨q, hq, heq⟩
  · rw [heq]; exact h
  · rw [heq]
    obtain ⟨hhead, hroot, hpe⟩ := h
    obtain ⟨r0, l', rfl⟩ : ∃ r0 l', l = r0 :: l' := by
      match l, hhead with
      | r0 :: l', _ => exact ⟨r0, l', rfl⟩
    refine ⟨hhead, ?_, ?_⟩
    · intro x hx
      rcases List.mem_append.mp hx with hx | hx
      · exact hroot x hx
      · have hx' : x = Node.mk ((steer q.point s d).getLastD q.point)
            (some q) (steer q.point s d) := by simpa using hx
        subst hx'
        show q.chainRoot = root
        exact hroot q hq
    · intro i hi hipos
      rw [List.length_append, List.length_singleton] at hi
      by_cases hil : i < (r0 :: l').length
      · obtain ⟨p, hp, j, hj, hji, hjp⟩ := hpe i hil hipos
        refine ⟨p, ?_, j, ?_, hji, ?_⟩
        · rw [List.getElem_append_left hil]
          exact hp
        · rw [List.length_append, List.length_singleton]
          omega
        · rw [List.getElem_append_left hj]
          exact hjp
      · have hieq : i = (r0 :: l').length := by omega
        obtain ⟨j, hj, hjq⟩ := List.mem_iff_getElem.mp hq
        subst hieq
        refine ⟨q, ?_, j, ?_, by omega, ?_⟩
        · rw [List.getElem_append_right (by omega)]
          simp only [Nat.sub_self, List.getElem_cons_zero]
          rfl
        · rw [List.length_append, List.length_singleton]
          omega
        · rw [List.getElem_append_left hj]
          exact hjq

lemma rrtGo_inv {n : ℕ} (valid : Pt n → Bool) (goal : Option (Pt n)) (d : ℝ)
    (samples : ℕ → Pt n) {root : Node n} :
    ∀ (fuel i : ℕ) (l : List (Node n)), rrtInv root l →
      rrtInv root (rrtGo valid goal d samples fuel i l) := by
  intro fuel
  induction fuel with
  | zero => intro i l h; exact h
  | succ fuel ih =>
      intro i l h
      rw [rrtGo]
      by_cases hg : goalHit goal l (rrtStep valid d l (samples i)) = true
      · simp only [hg, if_true]
        exact rrtStep_inv valid d (samples i) h
      · simp only [hg, if_false]
        exact ih (i + 1) _ (rrtStep_inv valid d (samples i) h)

lemma rrt_inv {n : ℕ} (state_bounds : Fin n → ℝ × ℝ) (valid : Pt n → Bool)
    (starting_point : Pt n) (goal_point : Option (Pt n)) (k : ℕ) (delta_q : ℝ)
    (samples : ℕ → Pt n) :
    rrtInv (Node.mk starting_point none [])
      (rrt state_bounds valid starting_point goal_point k delta_q samples) := by
  refine rrtGo_inv valid goal_point delta_q samples k 0 _ ⟨rfl, ?_, ?_⟩
  · intro x hx
    have hx' : x = Node.mk starting_point none [] := by simpa using hx
    subst hx'
    rfl
  · intro i hi hipos
    simp only [List.length_singleton] at hi
    omega

end Invariant

section Driver

lemma steer_getLastD {n : ℕ} (f t : Pt n) (d : ℝ) (x : Pt n) :
    (steer f t d).getLastD x = steerTarget f t d := by
  rw [List.getLastD_eq_getLast?, steer_getLast?]
  rfl

lemma rrtStep_length {n : ℕ} (valid : Pt n → Bool) (d : ℝ) (nodes : List (Node n))
    (s : Pt n) : (rrtStep valid d nodes s).length ≤ nodes.length + 1 := by
  rcases rrtStep_cases valid d nodes s with heq | ⟨q, hq, heq⟩ <;> rw [heq] <;> simp

lemma rrtGo_none_foldl {n : ℕ} (valid : Pt n → Bool) (d : ℝ) (samples : ℕ → Pt n) :
    ∀ (fuel i : ℕ) (l : List (Node n)),
      rrtGo valid none d samples fuel i l =
        (List.range fuel).foldl (fun nodes j => rrtStep valid d nodes (samples (i + j))) l := by
  intro fuel
  induction fuel with
  | zero => intro i l; rfl
  | succ fuel ih =>
      intro i l
      rw [rrtGo]
      have hg : goalHit (none : Option (Pt n)) l (rrtStep valid d l (samples i)) = false := rfl
      simp only [hg, Bool.false_eq_true, if_false]
      rw [ih (i + 1)]
      rw [List.range_succ_eq_map, List.foldl_cons, List.foldl_map]
      have hfun : (fun (nodes : List (Node n)) (j : ℕ) =>
          rrtStep valid d nodes (samples (i + 1 + j))) =
          fun (nodes : List (Node n)) (j : ℕ) =>
            rrtStep valid d nodes (samples (i + j.succ)) := by
        funext nodes j
        have : i + 1 + j = i + j.succ := by omega
        rw [this]
      rw [hfun]
      rfl

lemma rrtStep_root_goal {n : ℕ} (valid : Pt n → Bool) (start goal : Pt n) (d : ℝ)
    (hv : check_path_valid (steer start goal d) valid = true) :
    rrtStep valid d [Node.mk start none []] goal =
      [Node.mk start none [],
       Node.mk (steerTarget start goal d) (some (Node.mk start none []))
         (steer start goal d)] := by
  have h1 : get_nearest_vertex [Node.mk start none []] goal =
      some (Node.mk start none []) := rfl
  rw [rrtStep, h1]
  simp only [Node.point, hv, if_true, steer_getLastD]
  rfl

lemma goalHit_root_goal {n : ℕ} (start goal : Pt n) (d : ℝ) :
    goalHit (some goal) [Node.mk start none []]
      [Node.mk start none [],
       Node.mk goal (some (Node.mk start none [])) (steer start goal d)] = true := by
  have h2 : dista (Node.mk goal (some (Node.mk start none []))
      (steer start goal d) : Node n).point goal = 0 := by
    simp only [Node.point, dista_self]
  simp only [goalHit, List.getLast?_cons, List.getLast?_nil, Option.getD_none,
    Option.getD_some, Bool.and_eq_true, decide_eq_true_eq]
  refine ⟨by norm_num, ?_⟩
  rw [h2]
  norm_num

end Driver

/-- C6: with `goal_point = None`, `rrt` performs exactly `k` sampling
attempts — the result is the `k`-fold iteration of the growth step over
the first `k` samples, with no early termination — and returns the
accumulated node list; at most one node is added per attempt (invalid
edges are silently discarded), so at most `k + 1` nodes are present. -/
theorem rrt_none_budget {n : ℕ} (state_bounds : Fin n → ℝ × ℝ) (valid : Pt n → Bool)
    (starting_point : Pt n) (k : ℕ) (delta_q : ℝ) (samples : ℕ → Pt n) :
    rrt state_bounds valid starting_point none k delta_q samples =
      (List.range k).foldl (fun nodes j => rrtStep valid delta_q nodes (samples j))
        [Node.mk starting_point none []] ∧
    (rrt state_bounds valid starting_point none k delta_q samples).length ≤ k + 1 := by
  have hfold : rrt state_bounds valid starting_point none k delta_q samples =
      (List.range k).foldl (fun nodes j => rrtStep valid delta_q nodes (samples j))
        [Node.mk starting_point none []] := by
    rw [rrt, rrtGo_none_foldl]
    have hfun : (fun (nodes : List (Node n)) (j : ℕ) =>
        rrtStep valid delta_q nodes (samples (0 + j))) =
        fun (nodes : List (Node n)) (j : ℕ) => rrtStep valid delta_q nodes (samples j) := by
      funext nodes j
      have : 0 + j = j := by omega
      rw [this]
    rw [hfun]
  refine ⟨hfold, ?_⟩
  rw [hfold]
  have hlen : ∀ (js : List ℕ) (l : List (Node n)),
      (js.foldl (fun nodes j => rrtStep valid delta_q nodes (samples j)) l).length ≤
        l.length + js.length := by
    intro js
    induction js with
    | nil => intro l; simp
    | cons j js ih =>
        intro l
        rw [List.foldl_cons]
        calc (js.foldl (fun nodes j => rrtStep valid delta_q nodes (samples j))
                (rrtStep valid delta_q l (samples j))).length ≤
              (rrtStep valid delta_q l (samples j)).length + js.length := ih _
          _ ≤ l.length + 1 + js.length := by
              have := rrtStep_length valid delta_q l (samples j)
              omega
          _ = l.length + (j :: js).length := by simp; omega
  have hfin := hlen (List.range k) [Node.mk starting_point none []]
  simp only [List.length_range, List.length_singleton] at hfin
  omega

/-- C7: in every node list returned by `rrt`, each node except the one at
index 0 has a non-null parent appearing at a strictly earlier index, and
following parent links from any node terminates at the index-0 node
without visiting any node twice. -/
theorem rrt_tree_invariant {n : ℕ} (state_bounds : Fin n → ℝ × ℝ) (valid : Pt n → Bool)
    (starting_point : Pt n) (goal_point : Option (Pt n)) (k : ℕ) (delta_q : ℝ)
    (samples : ℕ → Pt n) :
    parentEarlier (rrt state_bounds valid starting_point goal_point k delta_q samples) ∧
    ∀ x ∈ rrt state_bounds valid starting_point goal_point k delta_q samples,
      x.chain.getLast? =
        (rrt state_bounds valid starting_point goal_point k delta_q samples).head? ∧
      x.chain.Nodup := by
  obtain ⟨hhead, hroot, hpe⟩ :=
    rrt_inv state_bounds valid starting_point goal_point k delta_q samples
  refine ⟨hpe, ?_⟩
  intro x hx
  refine ⟨?_, Node.chain_nodup x⟩
  rw [Node.chain_getLast?, hroot x hx, hhead]

/-- Concrete per-dimension bounds used to instantiate the RRT theorems. -/
def bounds1 : Fin 1 → ℝ × ℝ := fun _ => (0, 1)

/-- A validity predicate accepting every state. -/
def validAll : Pt 1 → Bool := fun _ => true

/-- A constant sample stream at the origin. -/
def samplesC : ℕ → Pt 1 := fun _ => ptC 0

/-- Witness for C7: at a concrete zero-budget run the returned list has
the tree structure and its root's chain is the root alone. -/
theorem rrt_tree_invariant_witness :
    parentEarlier (rrt bounds1 validAll (ptC 0) none 0 1 samplesC) ∧
    ((Node.mk (ptC 0) none []).chain.getLast? =
      (rrt bounds1 validAll (ptC 0) none 0 1 samplesC).head? ∧
      (Node.mk (ptC 0) none []).chain.Nodup) :=
  ⟨(rrt_tree_invariant bounds1 validAll (ptC 0) none 0 1 samplesC).1,
   (rrt_tree_invariant bounds1 validAll (ptC 0) none 0 1 samplesC).2
     (Node.mk (ptC 0) none []) (by simp [rrt, rrtGo])⟩

/-- C8: the node list returned by `rrt` is non-empty and its element at
index 0 is a root node whose point equals `starting_point`, whose parent
is `none`, and whose `path_from_parent` is empty. -/
theorem rrt_root_node {n : ℕ} (state_bounds : Fin n → ℝ × ℝ) (valid : Pt n → Bool)
    (starting_point : Pt n) (goal_point : Option (Pt n)) (k : ℕ) (delta_q : ℝ)
    (samples : ℕ → Pt n) :
    ∃ r, (rrt state_bounds valid starting_point goal_point k delta_q samples).head? =
        some r ∧
      r.point = starting_point ∧ r.parent = none ∧ r.path_from_parent = [] := by
  obtain ⟨hhead, -, -⟩ :=
    rrt_inv state_bounds valid starting_point goal_point k delta_q samples
  exact ⟨Node.mk starting_point none [], hhead, rfl, rfl, rfl⟩

/-- C5: if an iteration appends a node within `1e-5` of the goal, the
loop terminates immediately with that node included; in particular, when
the goal is within `delta_q` of the start, the first sample is the goal
and the steered edge is valid, `rrt` returns after a single iteration —
for every budget `k ≥ 1`, hence in fewer than `k` iterations for large
`k` — with the last node's state within `1e-5` of the goal. -/
theorem rrt_goal_terminates {n : ℕ} (state_bounds : Fin n → ℝ × ℝ) (valid : Pt n → Bool)
    (starting_point goal : Pt n) (k : ℕ) (delta_q : ℝ) (samples : ℕ → Pt n)
    (hs : samples 0 = goal)
    (hd : dista starting_point goal ≤ delta_q)
    (hv : check_path_valid (steer starting_point goal delta_q) valid = true)
    (hk : 1 ≤ k) :
    (∀ (fuel i : ℕ) (nodes : List (Node n)),
        goalHit (some goal) nodes (rrtStep valid delta_q nodes (samples i)) = true →
        rrtGo valid (some goal) delta_q samples (fuel + 1) i nodes =
          rrtStep valid delta_q nodes (samples i)) ∧
    rrt state_bounds valid starting_point (some goal) k delta_q samples =
      [Node.mk starting_point none [],
       Node.mk goal (some (Node.mk starting_point none []))
         (steer starting_point goal delta_q)] ∧
    (rrt state_bounds valid starting_point (some goal) k delta_q samples).getLast? =
      some (Node.mk goal (some (Node.mk starting_point none []))
        (steer starting_point goal delta_q)) ∧
    dista (Node.mk goal (some (Node.mk starting_point none []))
      (steer starting_point goal delta_q)).point goal ≤ 1e-5 := by
  have hstop : ∀ (fuel i : ℕ) (nodes : List (Node n)),
      goalHit (some goal) nodes (rrtStep valid delta_q nodes (samples i)) = true →
      rrtGo valid (some goal) delta_q samples (fuel + 1) i nodes =
        rrtStep valid delta_q nodes (samples i) := by
    intro fuel i nodes hg
    rw [rrtGo]
    simp only [hg, if_true]
  have htgt : steerTarget starting_point goal delta_q = goal := by
    rw [steerTarget, if_pos hd]
  have hstep : rrtStep valid delta_q [Node.mk starting_point none []] (samples 0) =
      [Node.mk starting_point none [],
       Node.mk goal (some (Node.mk starting_point none []))
         (steer starting_point goal delta_q)] := by
    rw [hs, rrtStep_root_goal valid starting_point goal delta_q hv, htgt]
  obtain ⟨m, rfl⟩ : ∃ m, k = m + 1 := ⟨k - 1, by omega⟩
  have hrun : rrt state_bounds valid starting_point (some goal) (m + 1) delta_q samples =
      [Node.mk starting_point none [],
       Node.mk goal (some (Node.mk starting_point none []))
         (steer starting_point goal delta_q)] := by
    rw [rrt, hstop m 0 _ (by rw [hstep]; exact goalHit_root_goal starting_point goal delta_q),
      hstep]
  refine ⟨hstop, hrun, ?_, ?_⟩
  · rw [hrun]
    rfl
  · simp only [Node.point, dista_self]
    norm_num

/-- Witness for C5: a concrete run whose goal equals the start, with an
all-accepting validity predicate and the goal as first sample, returns
the two-node list after one iteration despite a budget of 5. -/
theorem rrt_goal_terminates_witness :
    rrt bounds1 validAll (ptC 0) (some (ptC 0)) 5 1 samplesC =
      [Node.mk (ptC 0) none [],
       Node.mk (ptC 0) (some (Node.mk (ptC 0) none [])) (steer (ptC 0) (ptC 0) 1)] :=
  (rrt_goal_terminates bounds1 validAll (ptC 0) (ptC 0) 5 1 samplesC rfl
    (by rw [dista_self]; norm_num) (by simp [check_path_valid, validAll])
    (by norm_num)).2.1

/-- Witness for C3: a concrete two-node list is non-empty and the theorem
yields the index of its nearest node to the origin. -/
theorem get_nearest_vertex_min_witness :
    ([nodeA, nodeB] : List (Node 1)) ≠ [] ∧
    (∃ i : ℕ, ∃ hi : i < ([nodeA, nodeB] : List (Node 1)).length,
      get_nearest_vertex [nodeA, nodeB] (ptC 0) = some ([nodeA, nodeB] : List (Node 1))[i] ∧
      (∀ j, ∀ hj : j < ([nodeA, nodeB] : List (Node 1)).length,
        dista (([nodeA, nodeB] : List (Node 1))[i]).point (ptC 0) ≤
          dista (([nodeA, nodeB] : List (Node 1))[j]).point (ptC 0)) ∧
      ∀ j, ∀ hj : j < ([nodeA, nodeB] : List (Node 1)).length, j < i →
        dista (([nodeA, nodeB] : List (Node 1))[i]).point (ptC 0) <
          dista (([nodeA, nodeB] : List (Node 1))[j]).point (ptC 0)) :=
  ⟨by simp, get_nearest_vertex_min [nodeA, nodeB] (ptC 0) (by simp)⟩

